import Mathlib

/-!
Verification of the schema-driven record validator specified for this
repository. The repository's scripts exercise an external validation
engine; the engine itself is therefore modelled from the specification
(its data model in §3 and the algorithm in §4.1), while field-level
transforms and validators that do appear in the repository's own code
are embedded directly from that code.
-/

set_option maxHeartbeats 1000000

namespace PydanticSpec

/-- Modelled from the spec: raw and resolved values handled by the engine.
Declared types cover integer, float (modelled as an exact rational),
boolean, string, null (for optional fields), sequences, and nested
records (mappings from field name to value). -/
inductive Value where
  | vInt (n : Int)
  | vFloat (q : ℚ)
  | vBool (b : Bool)
  | vStr (s : String)
  | vNone
  | vList (vs : List Value)
  | vRec (fields : List (String × Value))
deriving Inhabited

/-- Modelled from the spec: the violation taxonomy of §7
(constraint subkinds are carried in the detail string). -/
inductive ViolationKind where
  | missingField
  | typeCoercionFailure
  | constraintViolation
  | modelValidationFailure
deriving DecidableEq, Repr

/-- Modelled from the spec: one per-field violation, with a field path
(a list of components; dotted rendering is `renderPath`), a kind, and
contextual detail. -/
structure Violation where
  path : List String
  kind : ViolationKind
  detail : String
deriving DecidableEq, Repr

/-- Dotted rendering of a violation path (`parent.field`). -/
def renderPath : List String → String
  | [] => ""
  | [c] => c
  | c :: rest => c ++ "." ++ renderPath rest

/-- Prefix a child violation's path with the parent component. -/
def prefixViolation (name : String) (v : Violation) : Violation :=
  { v with path := name :: v.path }

mutual
/-- Modelled from the spec: a field's declared type. -/
inductive FieldType where
  | tInt
  | tFloat
  | tBool
  | tStr
  | tSeq (elem : FieldType)
  | tOpt (elem : FieldType)
  | tNested (s : Schema)

/-- Modelled from the spec: a default is a fixed value or a zero-argument
producer function evaluated fresh per record instantiation. -/
inductive DefaultSpec where
  | fixed (v : Value)
  | factory (f : Unit → Value)

/-- Modelled from the spec: one field declaration — name, declared type,
optional pre-transform (raw value → normalized value, may fail),
ordered constraints (named predicates), and default policy
(`none` means the field is required). -/
inductive FieldSpec where
  | mk (name : String) (type : FieldType)
       (transform : Option (Value → Except String Value))
       (constraints : List (String × (Value → Bool)))
       (default : Option DefaultSpec)

/-- Modelled from the spec: an ordered sequence of field declarations,
model-level validators (each returns `none` for pass or a failure
reason), and computed fields (name plus pure function of the validated
record). -/
inductive Schema where
  | mk (fields : List FieldSpec)
       (modelValidators : List (List (String × Value) → Option String))
       (computedFields : List (String × (List (String × Value) → Value)))
end

def FieldSpec.name : FieldSpec → String
  | .mk n _ _ _ _ => n

def FieldSpec.type : FieldSpec → FieldType
  | .mk _ t _ _ _ => t

def FieldSpec.transform : FieldSpec → Option (Value → Except String Value)
  | .mk _ _ tr _ _ => tr

def FieldSpec.constraints : FieldSpec → List (String × (Value → Bool))
  | .mk _ _ _ cs _ => cs

def FieldSpec.default : FieldSpec → Option DefaultSpec
  | .mk _ _ _ _ d => d

def Schema.fields : Schema → List FieldSpec
  | .mk fs _ _ => fs

def Schema.modelValidators : Schema → List (List (String × Value) → Option String)
  | .mk _ ms _ => ms

def Schema.computedFields : Schema → List (String × (List (String × Value) → Value))
  | .mk _ _ cs => cs

/-- Look up a field name in a raw input or record (first binding wins). -/
def lookupRaw (m : List (String × Value)) (name : String) : Option Value :=
  match m with
  | [] => none
  | (k, v) :: rest => if k = name then some v else lookupRaw rest name

/-- Fold base-10 digits into a natural number. -/
def digitsToNat (ds : List Char) : Nat :=
  ds.foldl (fun acc c => 10 * acc + (c.toNat - '0'.toNat)) 0

/-- ASCII whitespace test used for trimming literals. -/
def isSpaceChar (c : Char) : Bool :=
  c = ' ' ∨ c = '\t' ∨ c = '\n' ∨ c = '\r'

/-- Strip leading and trailing whitespace from a character list. -/
def trimChars (cs : List Char) : List Char :=
  ((cs.dropWhile isSpaceChar).reverse.dropWhile isSpaceChar).reverse

/-- ASCII lowercasing of a string (Python `str.lower()` on ASCII). -/
def lowerString (s : String) : String :=
  ⟨s.toList.map Char.toLower⟩

/-- Modelled from the spec: string → integer coercion succeeds iff the
string is a syntactically valid base-10 integer literal
(whitespace-trimmed, optional sign). -/
def parseIntLit (s : String) : Option Int :=
  match trimChars s.toList with
  | '-' :: ds =>
      if ds ≠ [] ∧ ds.all Char.isDigit then some (-(digitsToNat ds : Int)) else none
  | '+' :: ds =>
      if ds ≠ [] ∧ ds.all Char.isDigit then some (digitsToNat ds : Int) else none
  | ds =>
      if ds ≠ [] ∧ ds.all Char.isDigit then some (digitsToNat ds : Int) else none

/-- Modelled from the spec: string → float coercion succeeds iff the
string parses as a decimal number (optional sign, digits, optional
fractional part). -/
def parseFloatLit (s : String) : Option ℚ :=
  let core : List Char → Option ℚ := fun cs =>
    match cs.splitOn '.' with
    | [intDs] =>
        if intDs ≠ [] ∧ intDs.all Char.isDigit then
          some (digitsToNat intDs : ℚ)
        else none
    | [intDs, fracDs] =>
        if (intDs ≠ [] ∨ fracDs ≠ []) ∧ intDs.all Char.isDigit ∧ fracDs.all Char.isDigit then
          some ((digitsToNat intDs : ℚ) +
                (digitsToNat fracDs : ℚ) / ((10 : ℚ) ^ fracDs.length))
        else none
    | _ => none
  match trimChars s.toList with
  | '-' :: ds => (core ds).map (fun q => -q)
  | '+' :: ds => core ds
  | ds => core ds

/-- Modelled from the spec: string → boolean coercion by a fixed
case-insensitive allow-list of truthy/falsy tokens. -/
def parseBoolLit (s : String) : Option Bool :=
  let t := lowerString s
  if t = "true" ∨ t = "1" ∨ t = "yes" then some true
  else if t = "false" ∨ t = "0" ∨ t = "no" then some false
  else none

/-- Resolve a default: a fixed value is used as is, a producer function
is invoked fresh. -/
def resolveDefault (d : DefaultSpec) : Value :=
  match d with
  | .fixed v => v
  | .factory f => f ()

/-- Run the model-level validators in declaration order; the first
failure reason is reported. -/
def runModelValidators (ms : List (List (String × Value) → Option String))
    (record : List (String × Value)) : Option String :=
  match ms with
  | [] => none
  | m :: rest =>
      match m record with
      | some reason => some reason
      | none => runModelValidators rest record

/-- Evaluate the computed fields in declaration order against the
field-validated record. -/
def computeFields (cs : List (String × (List (String × Value) → Value)))
    (record : List (String × Value)) : List (String × Value) :=
  cs.map (fun c => (c.1, c.2 record))

/-- Apply a field's optional pre-transform; an internal failure is
reported as a reason string. -/
def applyTransform (tr : Option (Value → Except String Value)) (v : Value) :
    Except String Value :=
  match tr with
  | none => .ok v
  | some f => f v

mutual
/-- Modelled from the spec: `validate(schema, raw_input)` of §4.1.
Field-level validation runs over every field, collecting every
violation; if any violation was found the aggregated error is raised
and model-level validators and computed fields never run; otherwise
model validators run in order, and on success computed fields are
evaluated and attached after the declared fields. -/
def validateSchema (s : Schema) (raw : List (String × Value)) :
    Except (List Violation) (List (String × Value)) :=
  match s with
  | .mk fields mvs cfs =>
      let fr := validateFields fields raw
      if fr.1.isEmpty then
        match runModelValidators mvs fr.2 with
        | some reason => .error [⟨[], .modelValidationFailure, reason⟩]
        | none => .ok (fr.2 ++ computeFields cfs fr.2)
      else .error fr.1

/-- Field-level pass: process every field in declaration order, never
aborting on a failure; returns the collected violations and the
resolved bindings of the fields that succeeded. -/
def validateFields (fs : List FieldSpec) (raw : List (String × Value)) :
    List Violation × List (String × Value) :=
  match fs with
  | [] => ([], [])
  | f :: rest =>
      let r1 := validateField f raw
      let r2 := validateFields rest raw
      (r1.1 ++ r2.1, r1.2 ++ r2.2)

/-- Process one field: present values go through transform, coercion and
constraints (collecting every failing constraint); omitted fields are a
missing-field violation when required, and otherwise resolve their
default without re-running constraints. -/
def validateField (f : FieldSpec) (raw : List (String × Value)) :
    List Violation × List (String × Value) :=
  match f with
  | .mk name ty tr cons dflt =>
      match lookupRaw raw name with
      | some v => validateFieldPresent name ty tr cons v
      | none =>
          match dflt with
          | some d => ([], [(name, resolveDefault d)])
          | none => ([⟨[name], .missingField, "Field required"⟩], [])

/-- Process a field whose raw value is present: pre-transform, then
coercion, then every constraint in order, each failing constraint being
a separate violation. -/
def validateFieldPresent (name : String) (ty : FieldType)
    (tr : Option (Value → Except String Value))
    (cons : List (String × (Value → Bool))) (v : Value) :
    List Violation × List (String × Value) :=
  match applyTransform tr v with
  | .error msg => ([⟨[name], .constraintViolation, msg⟩], [])
  | .ok v1 =>
      match coerceValue ty v1 with
      | .error vs => (vs.map (prefixViolation name), [])
      | .ok v2 =>
          let failed := cons.filter (fun c => !(c.2 v2))
          if failed.isEmpty then ([], [(name, v2)])
          else (failed.map (fun c => ⟨[name], .constraintViolation, c.1⟩), [])

/-- Modelled from the spec: type resolution under the fixed
compatibility table of §4.1a — exact match passes, string literals
convert when syntactically valid, integer → float widens, float →
integer requires an exact zero fractional part, and nothing else
converts; nested records and sequences recurse, collecting the
violations of every element. -/
def coerceValue (ty : FieldType) (v : Value) : Except (List Violation) Value :=
  match ty, v with
  | .tInt, .vInt n => .ok (.vInt n)
  | .tInt, .vStr s =>
      match parseIntLit s with
      | some n => .ok (.vInt n)
      | none => .error [⟨[], .typeCoercionFailure, "Input should be a valid integer"⟩]
  | .tInt, .vFloat q =>
      if q.den = 1 then .ok (.vInt q.num)
      else .error [⟨[], .typeCoercionFailure, "Input should be a valid integer"⟩]
  | .tFloat, .vFloat q => .ok (.vFloat q)
  | .tFloat, .vInt n => .ok (.vFloat (n : ℚ))
  | .tFloat, .vStr s =>
      match parseFloatLit s with
      | some q => .ok (.vFloat q)
      | none => .error [⟨[], .typeCoercionFailure, "Input should be a valid number"⟩]
  | .tBool, .vBool b => .ok (.vBool b)
  | .tBool, .vStr s =>
      match parseBoolLit s with
      | some b => .ok (.vBool b)
      | none => .error [⟨[], .typeCoercionFailure, "Input should be a valid boolean"⟩]
  | .tStr, .vStr s => .ok (.vStr s)
  | .tOpt _, .vNone => .ok .vNone
  | .tOpt t, v' => coerceValue t v'
  | .tSeq t, .vList vs =>
      let r := coerceSeq t vs 0
      if r.1.isEmpty then .ok (.vList r.2) else .error r.1
  | .tNested s, .vRec flds =>
      match validateSchema s flds with
      | .ok record => .ok (.vRec record)
      | .error vs => .error vs
  | _, _ => .error [⟨[], .typeCoercionFailure, "Input has the wrong type"⟩]

/-- Coerce every element of a sequence, prefixing element violations
with the element index; a failing element does not stop the others. -/
def coerceSeq (ty : FieldType) (vs : List Value) (idx : Nat) :
    List Violation × List Value :=
  match vs with
  | [] => ([], [])
  | v :: rest =>
      let r1 :=
        match coerceValue ty v with
        | .ok w => (([] : List Violation), [w])
        | .error errs => (errs.map (prefixViolation (toString idx)), ([] : List Value))
      let r2 := coerceSeq ty rest (idx + 1)
      (r1.1 ++ r2.1, r1.2 ++ r2.2)
end

/-! ## Code embedded from the repository's scripts -/

/-- Python `value.replace("_", "")` for the single-character pattern:
remove every underscore. -/
def removeUnderscores (s : String) : String :=
  ⟨s.toList.filter (fun c => c ≠ '_')⟩

/-- Python's Unicode-aware `str.isalnum()` per character, on the code
points exercised here: the ASCII alphanumerics, plus the non-ASCII
letter 'İ' (U+0130, LATIN CAPITAL LETTER I WITH DOT ABOVE), which
CPython accepts; the combining mark U+0307 is not alphanumeric. Other
non-ASCII alphanumerics are outside the modelled domain. -/
def pyIsAlnumChar (c : Char) : Bool :=
  c.isAlphanum || c = 'İ'

/-- Python `str.isalnum()`: nonempty and every character
alphanumeric. -/
def pyIsAlnum (s : String) : Bool :=
  !s.toList.isEmpty && s.toList.all pyIsAlnumChar

/-- Python's Unicode-aware `str.lower()` per character, on the code
points exercised here: ASCII letters map down by 32, and 'İ' (U+0130)
has the full case mapping to the two-character sequence
'i' + U+0307 (COMBINING DOT ABOVE), exactly as in CPython; other code
points are left unchanged. -/
def pyLowerChar (c : Char) : List Char :=
  if c = 'İ' then ['i', '̇'] else [c.toLower]

/-- Python `str.lower()`: concatenate the per-character case
mappings (the result can be longer than the input). -/
def pyLower (s : String) : String :=
  ⟨(s.toList.map pyLowerChar).flatten⟩

/-- Embedded from `src/Material_01/11_field_validators.py`,
`User.validate_and_normalize_username`: reject unless the value with
underscores removed is alphanumeric, then normalize to lowercase. -/
def validate_and_normalize_username (value : String) : Except String String :=
  if pyIsAlnum (removeUnderscores value) then .ok (pyLower value)
  else .error "Username must be alphanumeric (underscores allowed)"

/-- The ASCII strings, on which the modelled Python string functions
agree with CPython exactly. -/
def asciiString (s : String) : Bool :=
  s.toList.all (fun c => c.toNat < 128)

/-- The username validator lifted to engine values, used as the field's
pre-transform. -/
def usernameTransform (v : Value) : Except String Value :=
  match v with
  | .vStr s => (validate_and_normalize_username s).map .vStr
  | v' => .ok v'

/-- Embedded from `src/Material_01/12_model_validators.py`,
`UserRegistration.passwords_match`: fail unless `password` equals
`confirm_password`. -/
def passwords_match (record : List (String × Value)) : Option String :=
  match lookupRaw record "password", lookupRaw record "confirm_password" with
  | some (.vStr p), some (.vStr c) =>
      if p = c then none else some "Passwords do not match"
  | _, _ => none

/-- Embedded from `src/Material_02/Behaviour/task.py`,
`Booking.total_amount`: the computed field `nights * rate_per_night`
(the integer widened to a float for the product). -/
def total_amount (record : List (String × Value)) : Value :=
  match lookupRaw record "nights", lookupRaw record "rate_per_night" with
  | some (.vInt n), some (.vFloat q) => .vFloat ((n : ℚ) * q)
  | _, _ => .vNone

/-! ## Concrete schemas from the specification's test properties -/

/-- The §8 schema {a: required int, b: required string,
c: optional string with default ""}. -/
def schemaABC : Schema :=
  .mk [ .mk "a" .tInt none [] none
      , .mk "b" .tStr none [] none
      , .mk "c" .tStr none [] (some (.fixed (.vStr ""))) ]
    [] []

/-- The §8 schema {uid: int}, from
`src/Material_01/07_automatic_type_conversion.py`. -/
def uidSchema : Schema :=
  .mk [.mk "uid" .tInt none [] none] [] []

/-- The nested author schema of the §8 nested-path property: a user
requiring an integer age. -/
def authorSchema : Schema :=
  .mk [.mk "age" .tInt none [] none] [] []

/-- The outer schema of the nested-path property: a nested `author`
plus a required sibling `title`, as in the blog-post models of
`src/Material_01/15_nested_model.py`. -/
def blogSchema : Schema :=
  .mk [ .mk "author" (.tNested authorSchema) none [] none
      , .mk "title" .tStr none [] none ]
    [] []

/-- The registration schema of `src/Material_01/12_model_validators.py`:
three string fields plus the `passwords_match` model-level validator. -/
def signupSchema : Schema :=
  .mk [ .mk "email" .tStr none [] none
      , .mk "password" .tStr none [] none
      , .mk "confirm_password" .tStr none [] none ]
    [passwords_match] []

/-- The booking schema of the §8 computed-field property: `nights`
(integer, at least 1) and `rate_per_night` (float), with the computed
`total_amount`. -/
def bookingSchema : Schema :=
  .mk [ .mk "nights" .tInt none
          [("Input should be greater than or equal to 1",
            fun v => match v with | .vInt n => decide (1 ≤ n) | _ => false)] none
      , .mk "rate_per_night" .tFloat none [] none ]
    [] [("total_amount", total_amount)]

/-- The username field of `src/Material_01/11_field_validators.py`,
with its validator attached as the pre-transform. -/
def usernameSchema : Schema :=
  .mk [.mk "username" .tStr (some usernameTransform) [] none] [] []

/-! ## Missing-field accounting (claim C1) -/

/-- Select the violations that report a missing top-level field,
returning the field's name. -/
def topMissingName (v : Violation) : Option String :=
  match v with
  | ⟨[n], .missingField, _⟩ => some n
  | _ => none

/-- The names of the required fields (no default) that the raw input
omits, in declaration order. -/
def requiredOmittedNames (fs : List FieldSpec) (raw : List (String × Value)) :
    List String :=
  (fs.filter (fun f => f.default.isNone && (lookupRaw raw f.name).isNone)).map
    FieldSpec.name

/-! ## Structural lemmas about the violation lists -/

/-- Violations produced for a present field always name the field:
their paths are nonempty. -/
theorem validateFieldPresent_path_ne_nil (name : String) (ty : FieldType)
    (tr : Option (Value → Except String Value))
    (cons : List (String × (Value → Bool))) (v : Value) :
    ∀ w ∈ (validateFieldPresent name ty tr cons v).1, w.path ≠ [] := by
  intro w hw
  simp only [validateFieldPresent] at hw
  split at hw
  · simp at hw; subst hw; simp
  · split at hw
    · simp at hw
      obtain ⟨u, hu, rfl⟩ := hw
      simp [prefixViolation]
    · split at hw
      · simp at hw
      · simp at hw
        obtain ⟨c, hc, rfl⟩ := hw
        simp

/-- Violations produced by the field pass always name the field. -/
theorem validateField_path_ne_nil (f : FieldSpec) (raw : List (String × Value)) :
    ∀ w ∈ (validateField f raw).1, w.path ≠ [] := by
  obtain ⟨name, ty, tr, cons, dflt⟩ := f
  intro w hw
  cases dflt with
  | some d =>
      simp only [validateField.eq_1] at hw
      split at hw
      · exact validateFieldPresent_path_ne_nil _ _ _ _ _ w hw
      · simp at hw
  | none =>
      simp only [validateField.eq_2] at hw
      split at hw
      · exact validateFieldPresent_path_ne_nil _ _ _ _ _ w hw
      · simp at hw; subst hw; simp

/-- Violations collected across the whole field pass have nonempty
paths. -/
theorem validateFields_path_ne_nil (fs : List FieldSpec) (raw : List (String × Value)) :
    ∀ w ∈ (validateFields fs raw).1, w.path ≠ [] := by
  induction fs with
  | nil => intro w hw; simp [validateFields.eq_1] at hw
  | cons f rest ih =>
      intro w hw
      simp only [validateFields.eq_2] at hw
      rcases List.mem_append.1 hw with h | h
      · exact validateField_path_ne_nil f raw w h
      · exact ih w h

/-- A violation with an empty path in a raised error is never a
missing-field violation (it can only be a model-level failure). -/
theorem validateSchema_no_nil_missing (s : Schema) (raw : List (String × Value))
    (errs : List Violation) (h : validateSchema s raw = .error errs) :
    ∀ w ∈ errs, w.path = [] → w.kind ≠ .missingField := by
  obtain ⟨fs, ms, cs⟩ := s
  intro w hw hp
  simp only [validateSchema] at h
  cases hE : (validateFields fs raw).1.isEmpty with
  | false =>
      rw [hE] at h
      simp at h
      subst h
      exact absurd hp (validateFields_path_ne_nil fs raw w hw)
  | true =>
      rw [hE] at h
      simp at h
      cases hm : runModelValidators ms (validateFields fs raw).2 with
      | some reason =>
          rw [hm] at h
          simp at h
          subst h
          simp at hw
          subst hw
          simp
      | none => rw [hm] at h; simp at h

/-- Element violations of a sequence always carry the element index:
their paths are nonempty. -/
theorem coerceSeq_path_ne_nil (t : FieldType) (vs : List Value) (i : Nat) :
    ∀ w ∈ (coerceSeq t vs i).1, w.path ≠ [] := by
  induction vs generalizing i with
  | nil => intro w hw; simp [coerceSeq.eq_1] at hw
  | cons v rest ih =>
      intro w hw
      simp only [coerceSeq.eq_2] at hw
      rcases List.mem_append.1 hw with h | h
      · split at h
        · simp at h
        · simp at h
          obtain ⟨u, hu, rfl⟩ := h
          simp [prefixViolation]
      · exact ih (i + 1) w h

/-- Coercion never reports a missing-field violation at an empty path:
missing-field violations are created only by the field pass, which
names the field. -/
theorem coerce_no_nil_missing : ∀ (ty : FieldType) (v : Value) (errs : List Violation),
    coerceValue ty v = .error errs → ∀ w ∈ errs, w.path = [] → w.kind ≠ .missingField
  | .tInt, v, errs => by
      intro h w hw hp
      cases v <;> simp [coerceValue] at h
      case vStr s =>
        cases hps : parseIntLit s <;> rw [hps] at h <;> simp at h
        subst h; simp at hw; subst hw; simp
      case vFloat q =>
        by_cases hq : q.den = 1 <;> simp [hq] at h
        subst h; simp at hw; subst hw; simp
      all_goals (subst h; simp at hw; subst hw; simp)
  | .tFloat, v, errs => by
      intro h w hw hp
      cases v <;> simp [coerceValue] at h
      case vStr s =>
        cases hps : parseFloatLit s <;> rw [hps] at h <;> simp at h
        subst h; simp at hw; subst hw; simp
      all_goals (subst h; simp at hw; subst hw; simp)
  | .tBool, v, errs => by
      intro h w hw hp
      cases v <;> simp [coerceValue] at h
      case vStr s =>
        cases hps : parseBoolLit s <;> rw [hps] at h <;> simp at h
        subst h; simp at hw; subst hw; simp
      all_goals (subst h; simp at hw; subst hw; simp)
  | .tStr, v, errs => by
      intro h w hw hp
      cases v <;> simp [coerceValue] at h
      all_goals (subst h; simp at hw; subst hw; simp)
  | .tSeq t, v, errs => by
      intro h w hw hp
      cases v <;> simp [coerceValue] at h
      case vList vs =>
        by_cases hE : (coerceSeq t vs 0).1 = [] <;> simp [hE] at h
        subst h
        exact absurd hp (coerceSeq_path_ne_nil t vs 0 w hw)
      all_goals (subst h; simp at hw; subst hw; simp)
  | .tOpt t, v, errs => by
      intro h w hw hp
      cases v <;> simp [coerceValue] at h
      all_goals exact coerce_no_nil_missing t _ errs h w hw hp
  | .tNested s, v, errs => by
      intro h w hw hp
      cases v <;> simp [coerceValue] at h
      case vRec flds =>
        cases hv : validateSchema s flds <;> rw [hv] at h <;> simp at h
        subst h
        exact validateSchema_no_nil_missing s flds _ hv w hw hp
      all_goals (subst h; simp at hw; subst hw; simp)

/-- What `topMissingName` makes of a prefixed child violation. -/
theorem topMissingName_prefix (name : String) (u : Violation) :
    topMissingName (prefixViolation name u) =
      if u.path = [] ∧ u.kind = .missingField then some name else none := by
  obtain ⟨p, k, d⟩ := u
  cases p <;> cases k <;> simp [prefixViolation, topMissingName]

/-- A present field contributes no top-level missing-field violation. -/
theorem validateFieldPresent_no_missing (name : String) (ty : FieldType)
    (tr : Option (Value → Except String Value))
    (cons : List (String × (Value → Bool))) (v : Value) :
    (validateFieldPresent name ty tr cons v).1.filterMap topMissingName = [] := by
  simp only [validateFieldPresent]
  cases ht : applyTransform tr v with
  | error msg => simp [topMissingName]
  | ok v1 =>
      cases hc : coerceValue ty v1 with
      | error vs =>
          simp only [hc, List.filterMap_map]
          rw [List.filterMap_eq_nil_iff]
          intro u hu
          have hnm := coerce_no_nil_missing ty v1 vs hc u hu
          simp only [Function.comp_apply, topMissingName_prefix]
          rw [if_neg]
          rintro ⟨hp0, hk0⟩
          exact hnm hp0 hk0
      | ok v2 =>
          simp only [hc]
          split
          · simp
          · rw [List.filterMap_eq_nil_iff]
            intro u hu
            simp at hu
            obtain ⟨c, hcm, rfl⟩ := hu
            simp [topMissingName]

/-- Per field, the top-level missing-field violations are exactly one
entry when the field is required and omitted, and none otherwise. -/
theorem validateField_filterMap_missing (f : FieldSpec) (raw : List (String × Value)) :
    (validateField f raw).1.filterMap topMissingName =
      if f.default.isNone && (lookupRaw raw f.name).isNone then [f.name] else [] := by
  obtain ⟨name, ty, tr, cons, dflt⟩ := f
  simp only [FieldSpec.default, FieldSpec.name]
  cases dflt with
  | some d =>
      cases hl : lookupRaw raw name with
      | some v => simp [validateField.eq_1, hl, validateFieldPresent_no_missing]
      | none => simp [validateField.eq_1, hl]
  | none =>
      cases hl : lookupRaw raw name with
      | some v => simp [validateField.eq_2, hl, validateFieldPresent_no_missing]
      | none => simp [validateField.eq_2, hl, topMissingName]

/-- Across the whole field pass, the top-level missing-field violations
are exactly the required omitted field names, in declaration order. -/
theorem validateFields_filterMap_missing (fs : List FieldSpec)
    (raw : List (String × Value)) :
    (validateFields fs raw).1.filterMap topMissingName = requiredOmittedNames fs raw := by
  induction fs with
  | nil => simp [validateFields.eq_1, requiredOmittedNames]
  | cons f rest ih =>
      simp only [validateFields.eq_2, List.filterMap_append, ih,
        validateField_filterMap_missing]
      cases hb : (f.default.isNone && (lookupRaw raw f.name).isNone) <;>
        simp [requiredOmittedNames, List.filter_cons, hb]

/-- Any nonempty field-pass violation list is raised as the aggregated
error, and the model-level stage is never consulted. -/
theorem validateSchema_error_of_fieldViolations (s : Schema)
    (raw : List (String × Value)) (h : (validateFields s.fields raw).1 ≠ []) :
    validateSchema s raw = .error (validateFields s.fields raw).1 := by
  obtain ⟨fs, ms, cs⟩ := s
  simp only [Schema.fields] at h ⊢
  simp only [validateSchema]
  have hE : (validateFields fs raw).1.isEmpty = false := by
    cases hv : (validateFields fs raw).1 with
    | nil => exact absurd hv h
    | cons a l => rfl
  simp [hE]

/-! ## Claim theorems: concrete test properties -/

/-- C1: validation always runs to completion over all fields, and when
the input omits required fields the raised error is exhaustive: the
top-level missing-field violations it contains are exactly the omitted
required field names, one per field, in declaration order — never only
the first violation found. -/
theorem validate_reports_every_missing_required_field (s : Schema)
    (raw : List (String × Value))
    (h : requiredOmittedNames s.fields raw ≠ []) :
    validateSchema s raw = .error (validateFields s.fields raw).1 ∧
    (validateFields s.fields raw).1.filterMap topMissingName =
      requiredOmittedNames s.fields raw := by
  have hf := validateFields_filterMap_missing s.fields raw
  have hne : (validateFields s.fields raw).1 ≠ [] := by
    intro h0
    rw [h0] at hf
    simp at hf
    exact h hf
  exact ⟨validateSchema_error_of_fieldViolations s raw hne, hf⟩

theorem validate_reports_every_missing_required_field_witness :
    requiredOmittedNames schemaABC.fields [("b", Value.vStr "x")] = ["a"] ∧
    (validateSchema schemaABC [("b", Value.vStr "x")] =
      .error (validateFields schemaABC.fields [("b", Value.vStr "x")]).1 ∧
     (validateFields schemaABC.fields [("b", Value.vStr "x")]).1.filterMap topMissingName =
       requiredOmittedNames schemaABC.fields [("b", Value.vStr "x")]) :=
  ⟨by decide,
   validate_reports_every_missing_required_field schemaABC [("b", Value.vStr "x")]
     (by decide)⟩

/-- C2: a field omitted by the input that carries a default resolves to
that default with no violation recorded for it; in particular the empty
input against {a: required int, b: required string, c: optional string
with default ""} yields violations for exactly `a` and `b`, never `c`. -/
theorem validate_defaults_never_violate :
    (∀ (f : FieldSpec) (raw : List (String × Value)) (d : DefaultSpec),
       f.default = some d → lookupRaw raw f.name = none →
       validateField f raw = ([], [(f.name, resolveDefault d)])) ∧
    validateSchema schemaABC [] =
      .error [⟨["a"], .missingField, "Field required"⟩,
              ⟨["b"], .missingField, "Field required"⟩] := by
  constructor
  · intro f raw d hd hl
    obtain ⟨name, ty, tr, cons, dflt⟩ := f
    simp [FieldSpec.default] at hd
    simp [FieldSpec.name] at hl ⊢
    simp [validateField, hl, hd]
  · simp +decide [schemaABC, validateSchema, validateFields, validateField, validateFieldPresent, coerceValue,
      lookupRaw, applyTransform, runModelValidators, computeFields, resolveDefault]

theorem validate_defaults_never_violate_witness :
    validateField (.mk "c" .tStr none [] (some (.fixed (.vStr "")))) [("a", .vInt 1)] =
      ([], [("c", .vStr "")]) :=
  validate_defaults_never_violate.1
    (.mk "c" .tStr none [] (some (.fixed (.vStr "")))) [("a", .vInt 1)]
    (.fixed (.vStr "")) rfl rfl

/-- C3: a string input for an integer field is coerced exactly when it
is a syntactically valid base-10 integer literal — `{uid: "101"}`
validates to the integer 101 (not the string), and `{uid: "101a"}`
fails with a type-coercion violation on `uid`. -/
theorem validate_string_int_coercion :
    validateSchema uidSchema [("uid", .vStr "101")] = .ok [("uid", .vInt 101)] ∧
    validateSchema uidSchema [("uid", .vStr "101a")] =
      .error [⟨["uid"], .typeCoercionFailure, "Input should be a valid integer"⟩] ∧
    parseIntLit "101" = some 101 ∧ parseIntLit "101a" = none := by
  refine ⟨?_, ?_, by decide, by decide⟩ <;>
  simp +decide [uidSchema, validateSchema, validateFields, validateField, validateFieldPresent, coerceValue,
    lookupRaw, applyTransform, runModelValidators, computeFields, parseIntLit, trimChars,
    digitsToNat, prefixViolation]

/-- C4: a violation inside a nested-schema field surfaces with the
dotted path `author.age` in the same flat violation list, and the
nested failure does not abort validation of the sibling field (the
omitted `title` is still reported). -/
theorem validate_nested_dotted_path :
    validateSchema blogSchema [("author", .vRec [("age", .vStr "not-a-number")])] =
      .error [⟨["author", "age"], .typeCoercionFailure, "Input should be a valid integer"⟩,
              ⟨["title"], .missingField, "Field required"⟩] ∧
    renderPath ["author", "age"] = "author.age" := by
  refine ⟨?_, by decide⟩
  simp +decide [blogSchema, authorSchema, validateSchema, validateFields, validateField,
    validateFieldPresent, coerceValue, lookupRaw, applyTransform, runModelValidators, computeFields,
    parseIntLit, trimChars, digitsToNat, prefixViolation]

/-- C5: with the passwords-match model-level validator, individually
valid string fields with differing passwords fail with exactly one
model-level violation and no field-level violations, matching passwords
validate successfully, and the model-level stage never runs when the
field-level pass produced any violation. -/
theorem validate_model_validator_stage :
    (∀ p c : String, p ≠ c →
       validateSchema signupSchema
         [("email", .vStr "jamesbond@007.com"), ("password", .vStr p),
          ("confirm_password", .vStr c)] =
         .error [⟨[], .modelValidationFailure, "Passwords do not match"⟩]) ∧
    (∀ p : String,
       validateSchema signupSchema
         [("email", .vStr "jamesbond@007.com"), ("password", .vStr p),
          ("confirm_password", .vStr p)] =
         .ok [("email", .vStr "jamesbond@007.com"), ("password", .vStr p),
              ("confirm_password", .vStr p)]) ∧
    (∀ (s : Schema) (raw : List (String × Value)),
       (validateFields s.fields raw).1 ≠ [] →
       validateSchema s raw = .error (validateFields s.fields raw).1) := by
  refine ⟨?_, ?_, ?_⟩
  · intro p c h
    simp only [signupSchema, validateSchema]
    simp +decide [validateFields, validateField, validateFieldPresent, lookupRaw, applyTransform, coerceValue]
    simp +decide [runModelValidators, passwords_match, lookupRaw]
    simp [h]
  · intro p
    simp only [signupSchema, validateSchema]
    simp +decide [validateFields, validateField, validateFieldPresent, lookupRaw, applyTransform, coerceValue]
    simp +decide [runModelValidators, passwords_match, lookupRaw, computeFields]
  · exact validateSchema_error_of_fieldViolations

theorem validate_model_validator_stage_witness :
    validateSchema signupSchema
      [("email", .vStr "jamesbond@007.com"), ("password", .vStr "TopSecret007"),
       ("confirm_password", .vStr "WrongPassword")] =
      .error [⟨[], .modelValidationFailure, "Passwords do not match"⟩] ∧
    validateSchema schemaABC [] = .error (validateFields schemaABC.fields []).1 :=
  ⟨validate_model_validator_stage.1 "TopSecret007" "WrongPassword" (by decide),
   validate_model_validator_stage.2.2 schemaABC []
     (by simp +decide [schemaABC, Schema.fields, validateFields, validateField,
           validateFieldPresent, lookupRaw, applyTransform, coerceValue])⟩

/-- C6: the computed field `total_amount = nights * rate_per_night`
equals its defining function of the validated fields and appears in the
output — for `{nights: 3, rate_per_night: 2500.5}` it is `7501.5` —
supplying `total_amount` in the raw input changes nothing and is not an
error, and in general every successful record is exactly the validated
fields followed by the computed fields evaluated on them. -/
theorem validate_computed_field :
    validateSchema bookingSchema
        [("nights", .vInt 3), ("rate_per_night", .vFloat (2500.5 : ℚ))] =
      .ok [("nights", .vInt 3), ("rate_per_night", .vFloat (2500.5 : ℚ)),
           ("total_amount", .vFloat (7501.5 : ℚ))] ∧
    (∀ v : Value,
       validateSchema bookingSchema
         [("nights", .vInt 3), ("rate_per_night", .vFloat (2500.5 : ℚ)),
          ("total_amount", v)] =
       validateSchema bookingSchema
         [("nights", .vInt 3), ("rate_per_night", .vFloat (2500.5 : ℚ))]) ∧
    (∀ (s : Schema) (raw r : List (String × Value)),
       validateSchema s raw = .ok r →
       r = (validateFields s.fields raw).2 ++
           computeFields s.computedFields (validateFields s.fields raw).2) := by
  refine ⟨?_, ?_, ?_⟩
  · simp +decide [bookingSchema, validateSchema, validateFields, validateField,
      validateFieldPresent, coerceValue, lookupRaw, applyTransform, runModelValidators, computeFields,
      total_amount]
    norm_num
  · intro v
    simp +decide [bookingSchema, validateSchema, validateFields, validateField,
      validateFieldPresent, coerceValue, lookupRaw, applyTransform, runModelValidators, computeFields,
      total_amount]
  · intro s raw r h
    obtain ⟨fs, ms, cs⟩ := s
    simp only [Schema.fields, Schema.computedFields]
    simp only [validateSchema] at h
    by_cases hE : (validateFields fs raw).1.isEmpty
    · simp only [hE, if_true] at h
      cases hm : runModelValidators ms (validateFields fs raw).2 with
      | some reason => simp [hm] at h
      | none =>
          simp [hm] at h
          exact h.symm
    · simp only [hE, if_false] at h
      exact absurd h (by simp)

theorem validate_computed_field_witness :
    [("nights", Value.vInt 3), ("rate_per_night", Value.vFloat (2500.5 : ℚ)),
     ("total_amount", Value.vFloat (7501.5 : ℚ))] =
      (validateFields bookingSchema.fields
        [("nights", .vInt 3), ("rate_per_night", .vFloat (2500.5 : ℚ))]).2 ++
      computeFields bookingSchema.computedFields
        (validateFields bookingSchema.fields
          [("nights", .vInt 3), ("rate_per_night", .vFloat (2500.5 : ℚ))]).2 :=
  validate_computed_field.2.2 bookingSchema
    [("nights", .vInt 3), ("rate_per_night", .vFloat (2500.5 : ℚ))] _
    validate_computed_field.1

/-! ## Character-level facts for the username transform -/

theorem char_toNat_ofNat_valid {n : Nat} (h : n.isValidChar) : (Char.ofNat n).toNat = n := by
  rw [Char.ofNat, dif_pos h]
  rfl

theorem char_eq_of_toNat {a b : Char} (h : a.toNat = b.toNat) : a = b := by
  apply Char.ext
  exact UInt32.ext h

theorem char_isAlphanum_iff (c : Char) : c.isAlphanum = true ↔
    (48 ≤ c.toNat ∧ c.toNat ≤ 57) ∨ (65 ≤ c.toNat ∧ c.toNat ≤ 90) ∨
    (97 ≤ c.toNat ∧ c.toNat ≤ 122) := by
  simp [Char.isAlphanum, Char.isAlpha, Char.isUpper, Char.isLower, Char.isDigit,
    UInt32.le_def, BitVec.le_def, Char.toNat, UInt32.toNat]
  omega

theorem char_toLower_toNat (c : Char) :
    (Char.toLower c).toNat =
      if 65 ≤ c.toNat ∧ c.toNat ≤ 90 then c.toNat + 32 else c.toNat := by
  simp only [Char.toLower, ge_iff_le]
  by_cases h : 65 ≤ c.toNat ∧ c.toNat ≤ 90
  · rw [if_pos h, if_pos h]
    exact char_toNat_ofNat_valid (Or.inl (by omega))
  · rw [if_neg h, if_neg h]

theorem char_toLower_idem (c : Char) : (Char.toLower c).toLower = c.toLower := by
  apply char_eq_of_toNat
  rw [char_toLower_toNat, char_toLower_toNat]
  by_cases h : 65 ≤ c.toNat ∧ c.toNat ≤ 90
  · simp only [if_pos h]
    rw [if_neg (by omega : ¬(65 ≤ c.toNat + 32 ∧ c.toNat + 32 ≤ 90))]
  · simp only [if_neg h]

theorem char_toLower_alphanum {c : Char} (h : c.isAlphanum = true) :
    (Char.toLower c).isAlphanum = true := by
  rw [char_isAlphanum_iff] at h ⊢
  rw [char_toLower_toNat]
  by_cases hu : 65 ≤ c.toNat ∧ c.toNat ≤ 90 <;> simp [hu] <;> omega

theorem char_toLower_underscore_iff (c : Char) : c.toLower = '_' ↔ c = '_' := by
  constructor
  · intro h
    apply char_eq_of_toNat
    have h0 := congrArg Char.toNat h
    rw [char_toLower_toNat] at h0
    by_cases hu : 65 ≤ c.toNat ∧ c.toNat ≤ 90
    · rw [if_pos hu] at h0
      have h95 : ('_' : Char).toNat = 95 := by decide
      omega
    · rw [if_neg hu] at h0
      exact h0
  · intro h
    subst h
    decide

/-! ## String-level facts for the username transform -/

theorem removeUnderscores_lowerString (s : String) :
    removeUnderscores (lowerString s) = lowerString (removeUnderscores s) := by
  simp only [removeUnderscores, lowerString, String.toList]
  congr 1
  rw [List.filter_map]
  apply congrArg
  apply List.filter_congr
  intro c hc
  simp [Function.comp, char_toLower_underscore_iff]

theorem pyIsAlnum_lowerString {t : String} (h : pyIsAlnum t = true) :
    pyIsAlnum (lowerString t) = true := by
  simp only [pyIsAlnum, lowerString, String.toList, Bool.and_eq_true,
    List.all_eq_true] at h ⊢
  obtain ⟨h1, h2⟩ := h
  constructor
  · simpa using h1
  · intro c hc
    simp at hc
    obtain ⟨a, ha, rfl⟩ := hc
    have hx := h2 a ha
    simp only [pyIsAlnumChar, Bool.or_eq_true, decide_eq_true_eq] at hx ⊢
    rcases hx with hAl | hE
    · exact Or.inl (char_toLower_alphanum hAl)
    · subst hE
      right
      decide

theorem lowerString_idem (s : String) : lowerString (lowerString s) = lowerString s := by
  simp only [lowerString, String.toList]
  congr 1
  rw [List.map_map]
  apply List.map_congr_left
  intro c hc
  exact char_toLower_idem c

theorem char_toLower_ascii {c : Char} (h : c.toNat < 128) :
    (Char.toLower c).toNat < 128 := by
  rw [char_toLower_toNat]
  by_cases hu : 65 ≤ c.toNat ∧ c.toNat ≤ 90
  · simp [hu]; omega
  · simp [hu]; omega

theorem pyLowerChar_ascii {c : Char} (h : c.toNat < 128) :
    pyLowerChar c = [c.toLower] := by
  rw [pyLowerChar, if_neg]
  intro he
  subst he
  exact absurd h (by decide)

theorem join_map_pyLowerChar {l : List Char} (h : ∀ c ∈ l, c.toNat < 128) :
    (l.map pyLowerChar).flatten = l.map Char.toLower := by
  induction l with
  | nil => rfl
  | cons c t ih =>
      simp only [List.map_cons, List.flatten_cons]
      rw [pyLowerChar_ascii (h c (List.mem_cons_self _ _))]
      rw [ih (fun a ha => h a (List.mem_cons_of_mem _ ha))]
      rfl

/-- On ASCII strings the modelled Python `str.lower()` is plain
per-character ASCII lowercasing. -/
theorem pyLower_ascii {s : String} (h : asciiString s = true) :
    pyLower s = lowerString s := by
  simp only [asciiString, List.all_eq_true, decide_eq_true_eq] at h
  simp only [pyLower, lowerString]
  congr 1
  exact join_map_pyLowerChar h

theorem asciiString_lowerString {s : String} (h : asciiString s = true) :
    asciiString (lowerString s) = true := by
  simp only [asciiString, lowerString, String.toList, List.all_eq_true,
    decide_eq_true_eq] at h ⊢
  intro c hc
  simp at hc
  obtain ⟨a, ha, rfl⟩ := hc
  exact char_toLower_ascii (h a ha)

/-- C10 (counterexample): over the program's real Unicode domain the
username transform is not a fixpoint — 'İ' (U+0130) is accepted by
validation and stored as its CPython lowercase form 'i' + U+0307, but
re-validating that stored value is rejected, since the combining mark
is not alphanumeric. -/
theorem username_transform_unicode_counterexample :
    validate_and_normalize_username "İ" = .ok "i̇" ∧
    validate_and_normalize_username "i̇" =
      .error "Username must be alphanumeric (underscores allowed)" :=
  ⟨rfl, rfl⟩

/-- C10 (amended): restricted to ASCII usernames — where the modelled
Python string functions coincide with CPython exactly — the username
transform is idempotent: every accepted ASCII username is stored as
its lowercase form, and re-validating the stored value succeeds and
returns it unchanged, both for the bare transform and through the
engine. Over the full Unicode domain the transform is not a fixpoint
(see the counterexample with 'İ'). -/
theorem username_transform_idempotent_ascii (v w : String)
    (hA : asciiString v = true)
    (h : validate_and_normalize_username v = .ok w) :
    w = pyLower v ∧
    validate_and_normalize_username w = .ok w ∧
    validateSchema usernameSchema [("username", .vStr v)] =
      .ok [("username", .vStr w)] ∧
    validateSchema usernameSchema [("username", .vStr w)] =
      .ok [("username", .vStr w)] := by
  have core : w = pyLower v ∧ validate_and_normalize_username w = .ok w := by
    simp only [validate_and_normalize_username] at h
    by_cases hc : pyIsAlnum (removeUnderscores v) = true
    · rw [if_pos hc] at h
      simp at h
      subst h
      refine ⟨rfl, ?_⟩
      simp only [validate_and_normalize_username]
      rw [pyLower_ascii hA, removeUnderscores_lowerString,
          if_pos (pyIsAlnum_lowerString hc),
          pyLower_ascii (asciiString_lowerString hA), lowerString_idem]
    · rw [if_neg hc] at h
      simp at h
  have engine : ∀ a b : String, validate_and_normalize_username a = .ok b →
      validateSchema usernameSchema [("username", .vStr a)] =
        .ok [("username", .vStr b)] := by
    intro a b hab
    simp only [usernameSchema, validateSchema]
    simp +decide [validateFields, validateField, validateFieldPresent, lookupRaw,
      applyTransform, usernameTransform, hab, Except.map, coerceValue,
      runModelValidators, computeFields]
  exact ⟨core.1, core.2, engine v w h, engine w w core.2⟩

theorem username_transform_idempotent_ascii_witness :
    asciiString "James_Bond007" = true ∧
    ("james_bond007" = pyLower "James_Bond007" ∧
     validate_and_normalize_username "james_bond007" = .ok "james_bond007" ∧
     validateSchema usernameSchema [("username", .vStr "James_Bond007")] =
       .ok [("username", .vStr "james_bond007")] ∧
     validateSchema usernameSchema [("username", .vStr "james_bond007")] =
       .ok [("username", .vStr "james_bond007")]) :=
  ⟨by decide,
   username_transform_idempotent_ascii "James_Bond007" "james_bond007"
     (by decide) rfl⟩

/-! ## Store model of per-instance default allocation (claims C7, C9)

Aliasing of mutable defaults is not observable in the pure engine
embedding, so the default-resolution step is modelled a second time
with an explicit store of sequence cells. -/

/-- Modelled from the spec: the mutable cells holding sequence values;
each cell is one sequence instance. -/
abbrev Store := List (List Value)

/-- Modelled from the spec: a resolved value is either an immutable
plain value or a reference to a sequence cell in the store. -/
inductive HValue where
  | plain (v : Value)
  | seqRef (i : Nat)

/-- Modelled from the spec: resolving a default under the store — a
producer function is invoked fresh, and a produced sequence allocates a
new cell, never reusing a cached instance. -/
def resolveDefaultH (d : DefaultSpec) (st : Store) : HValue × Store :=
  match d with
  | .fixed v => (.plain v, st)
  | .factory f =>
      match f () with
      | .vList vs => (.seqRef st.length, st ++ [vs])
      | v => (.plain v, st)

/-- Modelled from the spec: the default-resolution pass of one
validation (§4.1 step 1d) under the store — present fields keep their
raw value, omitted fields with a default resolve it, threading the
store through the allocations. -/
def resolveDefaults (fs : List FieldSpec) (raw : List (String × Value)) (st : Store) :
    List (String × HValue) × Store :=
  match fs with
  | [] => ([], st)
  | f :: rest =>
      match lookupRaw raw f.name with
      | some v =>
          let r := resolveDefaults rest raw st
          ((f.name, .plain v) :: r.1, r.2)
      | none =>
          match f.default with
          | some d =>
              let rd := resolveDefaultH d st
              let r := resolveDefaults rest raw rd.2
              ((f.name, rd.1) :: r.1, r.2)
          | none => resolveDefaults rest raw st

/-- Read a resolved value back through the store. -/
def derefH (st : Store) : HValue → Value
  | .plain v => v
  | .seqRef i => .vList ((st.get? i).getD [])

/-- Look up a field in a store-backed record. -/
def lookupH (m : List (String × HValue)) (name : String) : Option HValue :=
  match m with
  | [] => none
  | (k, v) :: rest => if k = name then some v else lookupH rest name

/-- Append an element to a record's resolved sequence field, mutating
the store cell the record's field refers to. -/
def appendToField (st : Store) (r : List (String × HValue)) (name : String)
    (x : Value) : Store :=
  match lookupH r name with
  | some (.seqRef i) => st.set i (((st.get? i).getD []) ++ [x])
  | _ => st

/-- The record a store-backed resolution denotes: every binding read
back through the final store. -/
def derefBinds (p : List (String × HValue) × Store) : List (String × Value) :=
  p.1.map (fun b => (b.1, derefH p.2 b.2))

/-- The pure default-resolution pass, as the engine performs it. -/
def resolveDefaultsPure (fs : List FieldSpec) (raw : List (String × Value)) :
    List (String × Value) :=
  match fs with
  | [] => []
  | f :: rest =>
      match lookupRaw raw f.name with
      | some v => (f.name, v) :: resolveDefaultsPure rest raw
      | none =>
          match f.default with
          | some d => (f.name, resolveDefault d) :: resolveDefaultsPure rest raw
          | none => resolveDefaultsPure rest raw

/-- Resolution only allocates: cells already in the store are never
written. -/
theorem resolveDefaults_store_frame (fs : List FieldSpec) (raw : List (String × Value)) :
    ∀ (st : Store) (j : Nat), j < st.length →
      (resolveDefaults fs raw st).2.get? j = st.get? j := by
  induction fs with
  | nil => intro st j hj; rfl
  | cons f rest ih =>
      intro st j hj
      simp only [resolveDefaults]
      cases hl : lookupRaw raw f.name with
      | some v => exact ih st j hj
      | none =>
          cases hd : f.default with
          | none => exact ih st j hj
          | some d =>
              cases d with
              | fixed v => exact ih st j hj
              | factory g =>
                  simp only [resolveDefaultH]
                  cases hg : g () with
                  | vList vs =>
                      simp only
                      rw [ih (st ++ [vs]) j (by simp; omega)]
                      rw [List.get?_append hj]
                  | vInt n => exact ih st j hj
                  | vFloat q => exact ih st j hj
                  | vBool b => exact ih st j hj
                  | vStr s => exact ih st j hj
                  | vNone => exact ih st j hj
                  | vRec flds => exact ih st j hj

/-- Resolution never shrinks the store. -/
theorem resolveDefaults_store_mono (fs : List FieldSpec) (raw : List (String × Value)) :
    ∀ st : Store, st.length ≤ (resolveDefaults fs raw st).2.length := by
  induction fs with
  | nil => intro st; exact Nat.le_refl _
  | cons f rest ih =>
      intro st
      simp only [resolveDefaults]
      cases hl : lookupRaw raw f.name with
      | some v => exact ih st
      | none =>
          cases hd : f.default with
          | none => exact ih st
          | some d =>
              cases d with
              | fixed v => exact ih st
              | factory g =>
                  simp only [resolveDefaultH]
                  cases hg : g () with
                  | vList vs =>
                      simp only
                      have h1 := ih (st ++ [vs])
                      simp only [List.length_append, List.length_cons,
                        List.length_nil] at h1
                      omega
                  | vInt n => exact ih st
                  | vFloat q => exact ih st
                  | vBool b => exact ih st
                  | vStr s => exact ih st
                  | vNone => exact ih st
                  | vRec flds => exact ih st

/-- The store-backed resolution denotes the pure pass: the record read
back through the final store is a function of the field declarations
and the raw input alone, independent of the incoming store. -/
theorem resolveDefaults_pure (fs : List FieldSpec) (raw : List (String × Value)) :
    ∀ st : Store, derefBinds (resolveDefaults fs raw st) = resolveDefaultsPure fs raw := by
  induction fs with
  | nil => intro st; rfl
  | cons f rest ih =>
      intro st
      simp only [resolveDefaults, resolveDefaultsPure]
      cases hl : lookupRaw raw f.name with
      | some v =>
          show (f.name, v) :: derefBinds (resolveDefaults rest raw st) =
               (f.name, v) :: resolveDefaultsPure rest raw
          rw [ih st]
      | none =>
          cases hd : f.default with
          | none => exact ih st
          | some d =>
              cases d with
              | fixed v =>
                  show (f.name, v) :: derefBinds (resolveDefaults rest raw st) =
                       (f.name, v) :: resolveDefaultsPure rest raw
                  rw [ih st]
              | factory g =>
                  simp only [resolveDefaultH, resolveDefault]
                  cases hg : g () with
                  | vList vs =>
                      simp only
                      have hget : ((resolveDefaults rest raw (st ++ [vs])).2.get?
                          st.length).getD [] = vs := by
                        rw [resolveDefaults_store_frame rest raw (st ++ [vs])
                              st.length (by simp)]
                        simp
                      show (f.name, Value.vList (((resolveDefaults rest raw
                              (st ++ [vs])).2.get? st.length).getD [])) ::
                            derefBinds (resolveDefaults rest raw (st ++ [vs])) =
                           (f.name, Value.vList vs) ::
                            resolveDefaultsPure rest raw
                      rw [hget, ih (st ++ [vs])]
                  | vInt n =>
                      show (f.name, Value.vInt n) ::
                            derefBinds (resolveDefaults rest raw st) =
                           (f.name, Value.vInt n) :: resolveDefaultsPure rest raw
                      rw [ih st]
                  | vFloat q =>
                      show (f.name, Value.vFloat q) ::
                            derefBinds (resolveDefaults rest raw st) =
                           (f.name, Value.vFloat q) :: resolveDefaultsPure rest raw
                      rw [ih st]
                  | vBool b =>
                      show (f.name, Value.vBool b) ::
                            derefBinds (resolveDefaults rest raw st) =
                           (f.name, Value.vBool b) :: resolveDefaultsPure rest raw
                      rw [ih st]
                  | vStr s3 =>
                      show (f.name, Value.vStr s3) ::
                            derefBinds (resolveDefaults rest raw st) =
                           (f.name, Value.vStr s3) :: resolveDefaultsPure rest raw
                      rw [ih st]
                  | vNone =>
                      show (f.name, Value.vNone) ::
                            derefBinds (resolveDefaults rest raw st) =
                           (f.name, Value.vNone) :: resolveDefaultsPure rest raw
                      rw [ih st]
                  | vRec flds =>
                      show (f.name, Value.vRec flds) ::
                            derefBinds (resolveDefaults rest raw st) =
                           (f.name, Value.vRec flds) :: resolveDefaultsPure rest raw
                      rw [ih st]

/-- Bindings found by `lookupH` are bindings of the record. -/
theorem lookupH_mem {m : List (String × HValue)} {name : String} {hv : HValue}
    (h : lookupH m name = some hv) : (name, hv) ∈ m := by
  induction m with
  | nil => simp [lookupH] at h
  | cons b rest ih =>
      obtain ⟨k, v⟩ := b
      simp only [lookupH] at h
      by_cases hk : k = name
      · rw [if_pos hk] at h
        subst hk
        simp at h
        subst h
        exact List.mem_cons_self _ _
      · rw [if_neg hk] at h
        exact List.mem_cons_of_mem _ (ih h)

/-- Every sequence cell a resolution's record refers to was allocated
during that resolution: its index lies between the incoming and the
final store size. -/
theorem resolveDefaults_ref_bounds (fs : List FieldSpec) (raw : List (String × Value)) :
    ∀ (st : Store) (nm : String) (i : Nat),
      (nm, HValue.seqRef i) ∈ (resolveDefaults fs raw st).1 →
      st.length ≤ i ∧ i < (resolveDefaults fs raw st).2.length := by
  induction fs with
  | nil => intro st nm i h; simp [resolveDefaults] at h
  | cons f rest ih =>
      intro st nm i h
      simp only [resolveDefaults] at h ⊢
      cases hl : lookupRaw raw f.name with
      | some v =>
          rw [hl] at h
          simp at h
          exact ih st nm i h
      | none =>
          rw [hl] at h
          cases hd : f.default with
          | none =>
              rw [hd] at h
              exact ih st nm i h
          | some d =>
              rw [hd] at h
              cases d with
              | fixed v =>
                  simp only [resolveDefaultH] at h ⊢
                  simp at h
                  exact ih st nm i h
              | factory g =>
                  simp only [resolveDefaultH] at h ⊢
                  cases hg : g () with
                  | vList vs =>
                      rw [hg] at h
                      simp at h
                      show st.length ≤ i ∧
                        i < ((resolveDefaults rest raw (st ++ [vs])).2).length
                      rcases h with ⟨h1, h2⟩ | h
                      · subst h2
                        have hm := resolveDefaults_store_mono rest raw (st ++ [vs])
                        simp at hm
                        omega
                      · have hb := ih (st ++ [vs]) nm i h
                        simp at hb
                        omega
                  | vInt n =>
                      rw [hg] at h
                      simp at h
                      exact ih st nm i h
                  | vFloat q =>
                      rw [hg] at h
                      simp at h
                      exact ih st nm i h
                  | vBool b =>
                      rw [hg] at h
                      simp at h
                      exact ih st nm i h
                  | vStr s3 =>
                      rw [hg] at h
                      simp at h
                      exact ih st nm i h
                  | vNone =>
                      rw [hg] at h
                      simp at h
                      exact ih st nm i h
                  | vRec flds =>
                      rw [hg] at h
                      simp at h
                      exact ih st nm i h

/-- The tags field of `src/Material_01/08_pydantic_default_factory_and_literals.py`:
a sequence-typed field whose default is the producer function `list`. -/
def tagsFields : List FieldSpec :=
  [.mk "tags" (.tSeq .tStr) none [] (some (.factory (fun _ => .vList [])))]

/-- C9: a sequence-typed producer default is resolved to a fresh
instance per validation — two records produced by separate validations
that both received the default refer to distinct cells, and appending
to the first record's resolved default leaves the second record's
resolved default unchanged. -/
theorem default_factory_fresh_per_instance
    (fs : List FieldSpec) (raw1 raw2 : List (String × Value)) (st0 : Store)
    (nm : String) (i j : Nat) (x : Value)
    (h1 : lookupH (resolveDefaults fs raw1 st0).1 nm = some (.seqRef i))
    (h2 : lookupH (resolveDefaults fs raw2 (resolveDefaults fs raw1 st0).2).1 nm =
      some (.seqRef j)) :
    i ≠ j ∧
    derefH (appendToField (resolveDefaults fs raw2 (resolveDefaults fs raw1 st0).2).2
             (resolveDefaults fs raw1 st0).1 nm x) (.seqRef j) =
      derefH (resolveDefaults fs raw2 (resolveDefaults fs raw1 st0).2).2 (.seqRef j) := by
  have hb1 := resolveDefaults_ref_bounds fs raw1 st0 nm i (lookupH_mem h1)
  have hb2 := resolveDefaults_ref_bounds fs raw2 _ nm j (lookupH_mem h2)
  have hij : i ≠ j := by omega
  refine ⟨hij, ?_⟩
  simp only [appendToField, h1, derefH]
  rw [List.get?_set_ne _ _ hij]

theorem default_factory_fresh_per_instance_witness :
    (0 : Nat) ≠ 1 ∧
    derefH (appendToField
        (resolveDefaults tagsFields [] (resolveDefaults tagsFields [] []).2).2
        (resolveDefaults tagsFields [] []).1 "tags" (.vStr "x")) (.seqRef 1) =
      derefH (resolveDefaults tagsFields [] (resolveDefaults tagsFields [] []).2).2
        (.seqRef 1) :=
  default_factory_fresh_per_instance tagsFields [] [] [] "tags" 0 1 (.vStr "x") rfl rfl

/-- C7: validation is a pure, deterministic function of the schema and
the raw input — the engine is a mathematical function (two runs on the
same arguments are the same run), and in the store model the record a
resolution denotes is independent of the ambient store, coinciding with
the pure pass. -/
theorem validate_pure_deterministic :
    (∀ (s : Schema) (raw : List (String × Value)),
       validateSchema s raw = validateSchema s raw) ∧
    (∀ (fs : List FieldSpec) (raw : List (String × Value)) (st st' : Store),
       derefBinds (resolveDefaults fs raw st) =
         derefBinds (resolveDefaults fs raw st')) ∧
    (∀ (fs : List FieldSpec) (raw : List (String × Value)) (st : Store),
       derefBinds (resolveDefaults fs raw st) = resolveDefaultsPure fs raw) :=
  ⟨fun _ _ => rfl,
   fun fs raw st st' => by
     rw [resolveDefaults_pure fs raw st, resolveDefaults_pure fs raw st'],
   fun fs raw st => resolveDefaults_pure fs raw st⟩

/-! ## Record conformance (claim C8) -/

mutual
/-- Modelled from the spec: a resolved value conforms to a declared
type — exact constructor match for scalars, elementwise for sequences,
and for nested records every declared nested field bound and
type-correct. -/
def valueHasType : FieldType → Value → Bool
  | .tInt, .vInt _ => true
  | .tFloat, .vFloat _ => true
  | .tBool, .vBool _ => true
  | .tStr, .vStr _ => true
  | .tOpt _, .vNone => true
  | .tOpt t, v => valueHasType t v
  | .tSeq t, .vList vs => valuesHaveType t vs
  | .tNested (.mk nfs _ _), .vRec flds => recordCoversFields nfs flds
  | _, _ => false

/-- Every element of a sequence conforms to the element type. -/
def valuesHaveType : FieldType → List Value → Bool
  | _, [] => true
  | t, v :: vs => valueHasType t v && valuesHaveType t vs

/-- The Record invariant of §3: every declared field is bound in the
record to a type-correct value. -/
def recordCoversFields : List FieldSpec → List (String × Value) → Bool
  | [], _ => true
  | .mk name ty _ _ _ :: fs, r =>
      (match lookupRaw r name with
       | some v => valueHasType ty v
       | none => false) && recordCoversFields fs r
end

mutual
/-- Modelled from the spec: a schema is a validated-once description —
field names unique within the schema and every declared default
type-correct (defaults are trusted and never re-checked at validation
time, so the description must be well-formed up front). -/
def schemaWF : Schema → Bool
  | .mk fs _ _ => decide ((fs.map FieldSpec.name).Nodup) && fieldsWF fs

/-- Well-formedness of a field list: each declared type well-formed and
each default type-correct. -/
def fieldsWF : List FieldSpec → Bool
  | [] => true
  | .mk _ ty _ _ d :: fs => fieldTypeWF ty && defaultWT ty d && fieldsWF fs

/-- Well-formedness of a declared type: nested schemas are themselves
well-formed. -/
def fieldTypeWF : FieldType → Bool
  | .tSeq t => fieldTypeWF t
  | .tOpt t => fieldTypeWF t
  | .tNested s => schemaWF s
  | _ => true

/-- A declared default conforms to the field's type (producer defaults
by the value they produce). -/
def defaultWT : FieldType → Option DefaultSpec → Bool
  | _, none => true
  | t, some (.fixed v) => valueHasType t v
  | t, some (.factory g) => valueHasType t (g ())
end

/-- Embedded from `src/Material_01/15_nested_model.py`
(`model_copy(update={...})`): updating a record is a pure function
producing a new record from the old one plus a partial override
mapping — overridden fields take the override value, the rest keep the
old value. -/
def model_copy (r upd : List (String × Value)) : List (String × Value) :=
  r.map (fun b => (b.1, (lookupRaw upd b.1).getD b.2))

theorem lookupRaw_append_left {a : List (String × Value)} {n : String} {v : Value}
    (b : List (String × Value)) (h : lookupRaw a n = some v) :
    lookupRaw (a ++ b) n = some v := by
  induction a with
  | nil => simp [lookupRaw] at h
  | cons p rest ih =>
      obtain ⟨k, w⟩ := p
      simp only [lookupRaw] at h ⊢
      by_cases hk : k = n
      · rw [if_pos hk] at h ⊢
        exact h
      · rw [if_neg hk] at h ⊢
        exact ih h

theorem lookupRaw_append_right {a : List (String × Value)} {n : String}
    (b : List (String × Value)) (h : lookupRaw a n = none) :
    lookupRaw (a ++ b) n = lookupRaw b n := by
  induction a with
  | nil => rfl
  | cons p rest ih =>
      obtain ⟨k, w⟩ := p
      simp only [lookupRaw] at h ⊢
      by_cases hk : k = n
      · rw [if_pos hk] at h
        simp at h
      · rw [if_neg hk] at h ⊢
        exact ih h

theorem fieldsWF_mem {fs : List FieldSpec} (h : fieldsWF fs = true) :
    ∀ f ∈ fs, fieldTypeWF f.type = true ∧ defaultWT f.type f.default = true := by
  induction fs with
  | nil => intro f hf; simp at hf
  | cons g rest ih =>
      intro f hf
      obtain ⟨gn, gty, gtr, gcons, gd⟩ := g
      simp only [fieldsWF, Bool.and_eq_true] at h
      rcases List.mem_cons.1 hf with rfl | hf
      · exact ⟨h.1.1, h.1.2⟩
      · exact ih h.2 f hf

/-- Coercion never raises an empty violation list. -/
theorem coerce_error_ne_nil : ∀ (ty : FieldType) (v : Value) (errs : List Violation),
    coerceValue ty v = .error errs → errs ≠ []
  | .tInt, v, errs => by
      intro h
      cases v <;> simp [coerceValue] at h
      case vStr s =>
        cases hps : parseIntLit s <;> rw [hps] at h <;> simp at h
        subst h; simp
      case vFloat q =>
        by_cases hq : q.den = 1 <;> simp [hq] at h
        subst h; simp
      all_goals (subst h; simp)
  | .tFloat, v, errs => by
      intro h
      cases v <;> simp [coerceValue] at h
      case vStr s =>
        cases hps : parseFloatLit s <;> rw [hps] at h <;> simp at h
        subst h; simp
      all_goals (subst h; simp)
  | .tBool, v, errs => by
      intro h
      cases v <;> simp [coerceValue] at h
      case vStr s =>
        cases hps : parseBoolLit s <;> rw [hps] at h <;> simp at h
        subst h; simp
      all_goals (subst h; simp)
  | .tStr, v, errs => by
      intro h
      cases v <;> simp [coerceValue] at h
      all_goals (subst h; simp)
  | .tSeq t, v, errs => by
      intro h
      cases v <;> simp [coerceValue] at h
      case vList vs =>
        by_cases hE : (coerceSeq t vs 0).1 = [] <;> simp [hE] at h
        subst h
        exact hE
      all_goals (subst h; simp)
  | .tOpt t, v, errs => by
      intro h
      cases v <;> simp [coerceValue] at h
      all_goals exact coerce_error_ne_nil t _ errs h
  | .tNested s, v, errs => by
      intro h
      cases v <;> simp [coerceValue] at h
      case vRec flds =>
        obtain ⟨fs, ms, cs⟩ := s
        simp only [validateSchema] at h
        by_cases hE : (validateFields fs flds).1.isEmpty
        · simp only [hE, if_true] at h
          cases hm : runModelValidators ms (validateFields fs flds).2 with
          | some reason =>
              rw [hm] at h
              simp at h
              subst h
              simp
          | none => rw [hm] at h; simp at h
        · simp only [hE, if_false] at h
          simp at h
          subst h
          intro hn
          rw [hn] at hE
          simp at hE
      all_goals (subst h; simp)

/-- Elementwise soundness of sequence coercion. -/
theorem coerceSeq_sound (t : FieldType)
    (hA : ∀ v w, coerceValue t v = .ok w → valueHasType t w = true) :
    ∀ (vs : List Value) (i : Nat), (coerceSeq t vs i).1 = [] →
      valuesHaveType t (coerceSeq t vs i).2 = true := by
  intro vs
  induction vs with
  | nil => intro i h; simp [coerceSeq.eq_1, valuesHaveType]
  | cons v rest ih =>
      intro i h
      cases hc : coerceValue t v with
      | error errs =>
          simp only [coerceSeq.eq_2, hc] at h
          simp at h
          exact absurd h.1 (coerce_error_ne_nil t v errs hc)
      | ok w =>
          simp only [coerceSeq.eq_2, hc] at h ⊢
          simp only [List.nil_append, List.singleton_append] at h ⊢
          simp only [valuesHaveType, Bool.and_eq_true]
          exact ⟨hA v w hc, ih (i + 1) h⟩

/-- A field that produced no violation binds exactly its own name to a
type-correct value. -/
theorem validateField_ok_shape (name : String) (ty : FieldType)
    (tr : Option (Value → Except String Value))
    (cons : List (String × (Value → Bool))) (dflt : Option DefaultSpec)
    (raw : List (String × Value))
    (hA : ∀ v w, coerceValue ty v = .ok w → valueHasType ty w = true)
    (hD : defaultWT ty dflt = true)
    (h : (validateField (.mk name ty tr cons dflt) raw).1 = []) :
    ∃ v, (validateField (.mk name ty tr cons dflt) raw).2 = [(name, v)] ∧
      valueHasType ty v = true := by
  have present : ∀ v : Value, lookupRaw raw name = some v →
      (validateFieldPresent name ty tr cons v).1 = [] →
      ∃ u, (validateFieldPresent name ty tr cons v).2 = [(name, u)] ∧
        valueHasType ty u = true := by
    intro v hl hp
    cases ht : applyTransform tr v with
    | error msg => simp [validateFieldPresent, ht] at hp
    | ok v1 =>
        cases hc : coerceValue ty v1 with
        | error vs =>
            simp [validateFieldPresent, ht, hc] at hp
            exact absurd hp (coerce_error_ne_nil ty v1 vs hc)
        | ok v2 =>
            by_cases hF : (cons.filter (fun c => !(c.2 v2))).isEmpty = true
            · simp only [validateFieldPresent, ht, hc, hF, if_true]
              exact ⟨v2, rfl, hA v1 v2 hc⟩
            · exfalso
              simp only [validateFieldPresent, ht, hc, hF, if_false] at hp
              simp at hp hF
              obtain ⟨a, b, hab, hbf⟩ := hF
              have hba := hp a b hab
              rw [hba] at hbf
              simp at hbf
  cases dflt with
  | some d =>
      cases hl : lookupRaw raw name with
      | none =>
          simp only [validateField.eq_1, hl]
          cases d with
          | fixed v => exact ⟨v, rfl, by simpa [defaultWT] using hD⟩
          | factory g => exact ⟨g (), rfl, by simpa [defaultWT] using hD⟩
      | some v =>
          simp only [validateField.eq_1, hl] at h ⊢
          exact present v hl h
  | none =>
      cases hl : lookupRaw raw name with
      | none => simp [validateField.eq_2, hl] at h
      | some v =>
          simp only [validateField.eq_2, hl] at h ⊢
          exact present v hl h

/-- A violation-free field pass covers every declared field with a
type-correct binding, also under any record prefix free of the declared
names and any appended suffix. -/
theorem validateFields_cover (fs : List FieldSpec) (raw : List (String × Value))
    (hA : ∀ f ∈ fs, ∀ v w, coerceValue (FieldSpec.type f) v = .ok w →
      valueHasType (FieldSpec.type f) w = true)
    (hWF : fieldsWF fs = true)
    (hND : (fs.map FieldSpec.name).Nodup) :
    ∀ pre post : List (String × Value),
      (∀ n ∈ fs.map FieldSpec.name, lookupRaw pre n = none) →
      (validateFields fs raw).1 = [] →
      recordCoversFields fs (pre ++ (validateFields fs raw).2 ++ post) = true := by
  induction fs with
  | nil => intro pre post hpre h; simp [recordCoversFields]
  | cons f rest ih =>
      intro pre post hpre h
      simp only [validateFields.eq_2] at h ⊢
      rcases List.append_eq_nil.mp h with ⟨h1, h2⟩
      obtain ⟨fname, fty, ftr, fcons, fd⟩ := f
      have hWFf : fieldsWF (FieldSpec.mk fname fty ftr fcons fd :: rest) = true := hWF
      simp only [fieldsWF, Bool.and_eq_true] at hWFf
      obtain ⟨⟨hft, hfd⟩, hWFrest⟩ := hWFf
      obtain ⟨v, hb1, hvt⟩ :=
        validateField_ok_shape fname fty ftr fcons fd raw
          (hA _ (List.mem_cons_self _ _)) hfd h1
      have hNDf := hND
      simp only [List.map_cons, List.nodup_cons] at hNDf
      obtain ⟨hnf, hNDrest⟩ := hNDf
      have hpre_head : lookupRaw pre fname = none := by
        apply hpre
        simp [FieldSpec.name]
      have hlook : lookupRaw
          (pre ++ ((validateField (.mk fname fty ftr fcons fd) raw).2 ++
            (validateFields rest raw).2) ++ post) fname = some v := by
        rw [List.append_assoc]
        rw [lookupRaw_append_right _ hpre_head]
        rw [hb1]
        simp [lookupRaw]
      simp only [recordCoversFields, hlook, hvt, Bool.true_and]
      have hpre' : ∀ n ∈ rest.map FieldSpec.name,
          lookupRaw (pre ++ (validateField (.mk fname fty ftr fcons fd) raw).2) n =
            none := by
        intro n hn
        have hpn : lookupRaw pre n = none := by
          apply hpre
          simp only [List.map_cons]
          exact List.mem_cons_of_mem _ hn
        rw [lookupRaw_append_right _ hpn, hb1]
        simp only [lookupRaw]
        rw [if_neg]
        intro hfe
        exact hnf (hfe ▸ hn)
      have hrest := ih (fun g hg => hA g (List.mem_cons_of_mem _ hg)) hWFrest hNDrest
        (pre ++ (validateField (.mk fname fty ftr fcons fd) raw).2) post hpre' h2
      calc recordCoversFields rest
            (pre ++ ((validateField (.mk fname fty ftr fcons fd) raw).2 ++
              (validateFields rest raw).2) ++ post)
          = recordCoversFields rest
            ((pre ++ (validateField (.mk fname fty ftr fcons fd) raw).2) ++
              (validateFields rest raw).2 ++ post) := by
            simp [List.append_assoc]
        _ = true := hrest

theorem sizeOf_fieldSpec_type_lt (f : FieldSpec) : sizeOf f.type < sizeOf f := by
  obtain ⟨n, ty, tr, cons, d⟩ := f
  simp [FieldSpec.type]
  omega

/-- Soundness of coercion: a successfully coerced value conforms to the
declared type (for well-formed schemas, through nested records). -/
theorem coerce_sound : ∀ (ty : FieldType) (v w : Value), fieldTypeWF ty = true →
    coerceValue ty v = .ok w → valueHasType ty w = true
  | .tInt, v, w => by
      intro hwf h
      cases v <;> simp [coerceValue] at h
      case vInt n => subst h; simp [valueHasType]
      case vStr s =>
        cases hps : parseIntLit s <;> rw [hps] at h <;> simp at h
        subst h; simp [valueHasType]
      case vFloat q =>
        by_cases hq : q.den = 1 <;> simp [hq] at h
        subst h; simp [valueHasType]
  | .tFloat, v, w => by
      intro hwf h
      cases v <;> simp [coerceValue] at h
      case vInt n => subst h; simp [valueHasType]
      case vFloat q => subst h; simp [valueHasType]
      case vStr s =>
        cases hps : parseFloatLit s <;> rw [hps] at h <;> simp at h
        subst h; simp [valueHasType]
  | .tBool, v, w => by
      intro hwf h
      cases v <;> simp [coerceValue] at h
      case vBool b => subst h; simp [valueHasType]
      case vStr s =>
        cases hps : parseBoolLit s <;> rw [hps] at h <;> simp at h
        subst h; simp [valueHasType]
  | .tStr, v, w => by
      intro hwf h
      cases v <;> simp [coerceValue] at h
      subst h; simp [valueHasType]
  | .tOpt t, v, w => by
      intro hwf h
      have hwt : fieldTypeWF t = true := by simpa [fieldTypeWF] using hwf
      cases v <;> simp [coerceValue] at h
      case vNone => subst h; simp [valueHasType]
      all_goals (
        have hv := coerce_sound t _ w hwt h
        cases w <;> simp [valueHasType] at hv ⊢ <;> exact hv)
  | .tSeq t, v, w => by
      intro hwf h
      have hwt : fieldTypeWF t = true := by simpa [fieldTypeWF] using hwf
      cases v <;> simp [coerceValue] at h
      case vList vs =>
        by_cases hE : (coerceSeq t vs 0).1 = [] <;> simp [hE] at h
        subst h
        simp only [valueHasType]
        exact coerceSeq_sound t (fun a b hab => coerce_sound t a b hwt hab) vs 0 hE
  | .tNested (.mk nfs nms ncs), v, w => by
      intro hwf h
      have hwf' : schemaWF (.mk nfs nms ncs) = true := by
        simpa [fieldTypeWF] using hwf
      simp only [schemaWF, Bool.and_eq_true, decide_eq_true_eq] at hwf'
      obtain ⟨hND, hWFf⟩ := hwf'
      cases v <;> simp [coerceValue] at h
      case vRec flds =>
        cases hv : validateSchema (.mk nfs nms ncs) flds with
        | error errs => rw [hv] at h; simp at h
        | ok record =>
            rw [hv] at h
            simp at h
            subst h
            simp only [valueHasType]
            simp only [validateSchema] at hv
            by_cases hE : (validateFields nfs flds).1.isEmpty
            · simp only [hE, if_true] at hv
              cases hm : runModelValidators nms (validateFields nfs flds).2 with
              | some reason => rw [hm] at hv; simp at hv
              | none =>
                  rw [hm] at hv
                  simp at hv
                  have hcov := validateFields_cover nfs flds
                    (fun f hf a b hab =>
                      coerce_sound (FieldSpec.type f) a b
                        (fieldsWF_mem hWFf f hf).1 hab)
                    hWFf hND [] (computeFields ncs (validateFields nfs flds).2)
                    (by intro n hn; rfl)
                    (by simpa using hE)
                  simp only [List.nil_append] at hcov
                  rw [hv] at hcov
                  exact hcov
            · simp only [hE, if_false] at hv
              simp at hv
  termination_by ty _ _ => sizeOf ty
  decreasing_by
    all_goals simp_wf
    all_goals first
      | omega
      | (have h1 := sizeOf_fieldSpec_type_lt f
         have h2 := List.sizeOf_lt_of_mem hf
         simp at h2 ⊢
         omega)

/-- A successful validation of a well-formed schema yields a record
satisfying the schema: every declared field bound and type-correct. -/
theorem validateSchema_sound (s : Schema) (raw r : List (String × Value))
    (hWF : schemaWF s = true) (h : validateSchema s raw = .ok r) :
    recordCoversFields s.fields r = true := by
  obtain ⟨fs, ms, cs⟩ := s
  simp only [schemaWF, Bool.and_eq_true, decide_eq_true_eq] at hWF
  obtain ⟨hND, hWFf⟩ := hWF
  simp only [validateSchema] at h
  simp only [Schema.fields]
  by_cases hE : (validateFields fs raw).1.isEmpty
  · simp only [hE, if_true] at h
    cases hm : runModelValidators ms (validateFields fs raw).2 with
    | some reason => rw [hm] at h; simp at h
    | none =>
        rw [hm] at h
        simp at h
        have hcov := validateFields_cover fs raw
          (fun f hf a b hab =>
            coerce_sound (FieldSpec.type f) a b (fieldsWF_mem hWFf f hf).1 hab)
          hWFf hND [] (computeFields cs (validateFields fs raw).2)
          (fun n hn => rfl) (by simpa using hE)
        simp only [List.nil_append] at hcov
        rw [h] at hcov
        exact hcov
  · simp only [hE, if_false] at h
    simp at h

/-- C8: a record returned by validation is an immutable value
satisfying its schema — every declared field is bound to a
type-correct value — and updating is exposed only as the pure
`model_copy`, which produces a new record with the same field names,
taking override values where given and the old values elsewhere,
leaving the original untouched. -/
theorem validate_record_conforms_and_pure_copy (s : Schema)
    (raw r : List (String × Value))
    (hWF : schemaWF s = true) (hok : validateSchema s raw = .ok r) :
    recordCoversFields s.fields r = true ∧
    (∀ upd, (model_copy r upd).map Prod.fst = r.map Prod.fst) ∧
    (∀ upd n v w, (n, v) ∈ r → lookupRaw upd n = some w →
      (n, w) ∈ model_copy r upd) ∧
    (∀ upd n v, (n, v) ∈ r → lookupRaw upd n = none →
      (n, v) ∈ model_copy r upd) := by
  refine ⟨validateSchema_sound s raw r hWF hok, ?_, ?_, ?_⟩
  · intro upd
    simp [model_copy]
  · intro upd n v w hm hl
    have hx := List.mem_map_of_mem
      (fun b : String × Value => (b.1, (lookupRaw upd b.1).getD b.2)) hm
    simp only [hl] at hx
    simpa [model_copy] using hx
  · intro upd n v hm hl
    have hx := List.mem_map_of_mem
      (fun b : String × Value => (b.1, (lookupRaw upd b.1).getD b.2)) hm
    simp only [hl] at hx
    simpa [model_copy] using hx

theorem validate_record_conforms_and_pure_copy_witness :
    recordCoversFields schemaABC.fields
      [("a", Value.vInt 1), ("b", Value.vStr "t"), ("c", Value.vStr "")] = true ∧
    (∀ upd, (model_copy
        [("a", Value.vInt 1), ("b", Value.vStr "t"), ("c", Value.vStr "")] upd).map
          Prod.fst =
      [("a", Value.vInt 1), ("b", Value.vStr "t"), ("c", Value.vStr "")].map
        Prod.fst) ∧
    (∀ upd n v w,
      (n, v) ∈ [("a", Value.vInt 1), ("b", Value.vStr "t"), ("c", Value.vStr "")] →
      lookupRaw upd n = some w →
      (n, w) ∈ model_copy
        [("a", Value.vInt 1), ("b", Value.vStr "t"), ("c", Value.vStr "")] upd) ∧
    (∀ upd n v,
      (n, v) ∈ [("a", Value.vInt 1), ("b", Value.vStr "t"), ("c", Value.vStr "")] →
      lookupRaw upd n = none →
      (n, v) ∈ model_copy
        [("a", Value.vInt 1), ("b", Value.vStr "t"), ("c", Value.vStr "")] upd) :=
  validate_record_conforms_and_pure_copy schemaABC [("a", .vInt 1), ("b", .vStr "t")]
    [("a", Value.vInt 1), ("b", Value.vStr "t"), ("c", Value.vStr "")]
    (by simp +decide [schemaABC, schemaWF, fieldsWF, fieldTypeWF, defaultWT,
      valueHasType, FieldSpec.name])
    (by simp +decide [schemaABC, validateSchema, validateFields, validateField,
      validateFieldPresent, coerceValue, lookupRaw, applyTransform,
      runModelValidators, computeFields, resolveDefault])

end PydanticSpec
